import Mathlib

/-!
Verification of the jimgw prior engine (`src/jimgw/prior.py`).

The embedding works over exact real arithmetic extended with infinities:
probability-density values and parameter values live in `EReal`, with `⊥`
playing the role of the `-infinity` sentinel that the design mandates for
out-of-support density evaluation (spec section 7).  Floating-point rounding
is idealized away; non-finite propagation is kept.

Parameter names: the source builds intermediate parameter names by string
formatting (for instance an f-string embedding the bounds).  The embedding
keeps the user-visible part of each name as a `String` and replaces the
formatted decorations by constructors of an inductive `PName`, preserving
exactly the property the formatting provides: the intermediate names of a
transform chain are pairwise distinct and distinct from the user name.

`jimgw/transforms.py` is not part of the sources provided; every definition
whose doc comment starts with `Modelled from the spec:` renders the
corresponding description of spec sections 4.1 and 4.3.
-/

namespace JimgwPrior

/-- Parameter identifiers.  `user s` is a caller-supplied name; the other
constructors model the decorated intermediate names the source manufactures
inside derived priors (`f"{name}_base"` and the f-string-decorated names of
the uniform chain, kept abstract but pairwise distinct). -/
inductive PName where
  | user (s : String)
  | base (s : String)
  | unitv (s : String)
  | shifted (s : String)
  | beforeT (s : String)
  deriving DecidableEq, Repr

/-- Model of a jax PRNG key. -/
abbrev Key := ℕ

/-- Model of `jax.random.PRNGKey(n)`. -/
def prngKey (n : ℕ) : Key := n

/-- A parameter vector: a total map from names to extended-real values
(the dictionaries `dict[str, Float]` of the source; absent keys read as a
junk value, which faithful uses never consult). -/
def PV : Type := PName → EReal

/-- Functional update of a parameter vector, modelling a dictionary write. -/
def pvSet (z : PV) (n : PName) (v : EReal) : PV :=
  fun m => if m = n then v else z m

/-- Parameter vector holding a single real value under a single name. -/
def pvSingle (n : PName) (v : ℝ) : PV :=
  fun m => if m = n then (v : EReal) else 0

/-- Extended-real logarithm of a real argument: `log x` for positive `x` and
the non-finite sentinel `⊥` otherwise, rendering the design rule that density
formulas reaching a non-positive logarithm argument produce `-infinity`
(spec section 7, numerical edge cases). -/
noncomputable def elogr (x : ℝ) : EReal :=
  if 0 < x then ((Real.log x : ℝ) : EReal) else ⊥

/-- Extended-real logarithm. -/
noncomputable def elog (x : EReal) : EReal :=
  if x = ⊤ then ⊤ else elogr x.toReal

/-- Extended-real exponential: the continuous extension of `Real.exp`. -/
noncomputable def eexp (x : EReal) : EReal :=
  if x = ⊤ then ⊤ else if x = ⊥ then 0 else ((Real.exp x.toReal : ℝ) : EReal)

/-- Extended-real logistic sigmoid: the continuous extension of
`1 / (1 + exp (-x))`, sending `⊥` to `0` and `⊤` to `1`. -/
noncomputable def esigmoid (x : EReal) : EReal :=
  if x = ⊤ then 1
  else if x = ⊥ then 0
  else ((1 / (1 + Real.exp (-x.toReal)) : ℝ) : EReal)

/-- Log-density of the logistic leaf distribution, from
`LogisticDistribution.log_prob` (prior.py line 103):
`-x - 2 * log(1 + exp(-x))`. -/
noncomputable def logisticLogPdf (x : EReal) : EReal :=
  -x - 2 * elog (1 + eexp (-x))

/-- Log-density of the standard normal leaf distribution, from
`StandardNormalDistribution.log_prob` (prior.py line 143):
`-0.5*x^2 - 0.5*log(2*pi)`.  Stated for finite inputs through `toReal`;
infinite inputs give `⊥`. -/
noncomputable def normalLogPdf (x : EReal) : EReal :=
  if x = ⊤ ∨ x = ⊥ then ⊥
  else ((-(0.5) * x.toReal ^ 2 - 0.5 * Real.log (2 * Real.pi) : ℝ) : EReal)

/-- Modelled from the spec: the concrete bijective transforms of section 4.1
(`jimgw/transforms.py` is not among the provided sources).  Every transform
used by the priors of `prior.py` maps one named input to one named output;
`nIn` is the name consumed by `forward` (the base-space side) and `nOut` the
name it produces (the composite-space side), matching the
input-list/output-list configuration pairs of section 6. -/
inductive TransformK where
  | logitT (nIn nOut : PName)
  | scaleT (nIn nOut : PName) (s : ℝ)
  | offsetT (nIn nOut : PName) (c : ℝ)
  | arcSineT (nIn nOut : PName)
  | powerLawT (nIn nOut : PName) (xmin xmax alpha : ℝ)
  | paretoT (nIn nOut : PName) (xmin xmax : ℝ)

namespace TransformK

/-- Input name of a transform. -/
def nameIn : TransformK → PName
  | logitT i _ => i
  | scaleT i _ _ => i
  | offsetT i _ _ => i
  | arcSineT i _ => i
  | powerLawT i _ _ _ _ => i
  | paretoT i _ _ _ => i

/-- Output name of a transform. -/
def nameOut : TransformK → PName
  | logitT _ o => o
  | scaleT _ o _ => o
  | offsetT _ o _ => o
  | arcSineT _ o => o
  | powerLawT _ o _ _ _ => o
  | paretoT _ o _ _ => o

/-- Modelled from the spec: the value computed by each transform's `forward`
map (spec section 4.1), in the orientation `prior.py` uses in its sample
stage — from the unconstrained base space towards the composite's own space
(spec section 4.3).  So the logit pair's forward is the logistic sigmoid
(landing in `(0,1)`), scale multiplies by the constant, offset adds the
constant, arcsine's forward is `arcsin`, and the power-law/Pareto forwards
are the inverse CDFs written in section 4.1. -/
noncomputable def forwardVal : TransformK → EReal → EReal
  | logitT _ _, x => esigmoid x
  | scaleT _ _ s, x => ((s * x.toReal : ℝ) : EReal)
  | offsetT _ _ c, x => ((x.toReal + c : ℝ) : EReal)
  | arcSineT _ _, x => ((Real.arcsin x.toReal : ℝ) : EReal)
  | powerLawT _ _ xmin xmax alpha, x =>
      ((((xmax ^ (1 + alpha) - xmin ^ (1 + alpha)) * x.toReal
          + xmin ^ (1 + alpha)) ^ (1 / (1 + alpha)) : ℝ) : EReal)
  | paretoT _ _ xmin xmax, x =>
      ((xmin * (xmax / xmin) ^ x.toReal : ℝ) : EReal)

/-- Modelled from the spec: the pre-image computed by each transform's
`inverse` map (spec section 4.1).  The logit pair's inverse is
`log(u/(1-u))` (non-positive arguments of the logarithm give the non-finite
sentinel, per the boundary rule of section 7), scale divides by the
constant, offset subtracts it, arcsine's inverse is `sin`, the power-law
inverse is its CDF and the Pareto inverse the log-uniform CDF. -/
noncomputable def inverseVal : TransformK → EReal → EReal
  | logitT _ _, u => elogr (u.toReal / (1 - u.toReal))
  | scaleT _ _ s, u => ((u.toReal / s : ℝ) : EReal)
  | offsetT _ _ c, u => ((u.toReal - c : ℝ) : EReal)
  | arcSineT _ _, u => ((Real.sin u.toReal : ℝ) : EReal)
  | powerLawT _ _ xmin xmax alpha, u =>
      (((u.toReal ^ (1 + alpha) - xmin ^ (1 + alpha))
          / (xmax ^ (1 + alpha) - xmin ^ (1 + alpha)) : ℝ) : EReal)
  | paretoT _ _ xmin xmax, u =>
      ((Real.log (u.toReal / xmin) / Real.log (xmax / xmin) : ℝ) : EReal)

/-- Modelled from the spec: the log-Jacobian contribution returned by
`inverse` — the log of the absolute Jacobian determinant of the inverse map,
`d(input)/d(output)` (general contract of section 4.1).  For the logit pair
this derivative is `1/(u*(1-u))`, written as the negated logarithm of
`|u*(1-u)|` so that the boundary `u ∈ {0,1}` produces an infinite value as
section 7 requires; for scale it is `-log|s|`; offset contributes `0`;
arcsine contributes `log|cos(y)|`; the power-law and Pareto contributions
are the closed forms `log(normalization) + alpha*log(y)` and
`-log(y) - log(log(xmax/xmin))` written in section 4.1. -/
noncomputable def inverseJac : TransformK → EReal → EReal
  | logitT _ _, u => -(elogr |u.toReal * (1 - u.toReal)|)
  | scaleT _ _ s, _ => -(elogr |s|)
  | offsetT _ _ _, _ => 0
  | arcSineT _ _, u => elogr |Real.cos u.toReal|
  | powerLawT _ _ xmin xmax alpha, u =>
      ((Real.log ((1 + alpha) / (xmax ^ (1 + alpha) - xmin ^ (1 + alpha)))
          + alpha * Real.log u.toReal : ℝ) : EReal)
  | paretoT _ _ xmin xmax, u =>
      ((-(Real.log u.toReal) - Real.log (Real.log (xmax / xmin)) : ℝ) : EReal)

/-- Modelled from the spec: name propagation (section 4.3) — a transform
renames its declared input name to its declared output name inside a name
list, leaving the other names alone. -/
def propagateName (t : TransformK) (names : List PName) : List PName :=
  names.map (fun n => if n = t.nameIn then t.nameOut else n)

end TransformK

/-- Forward application of one transform to a parameter vector: reads the
input name, writes the output name (spec section 4.1, forward contract). -/
noncomputable def forwardT (t : TransformK) (z : PV) : PV :=
  pvSet z t.nameOut (t.forwardVal (z t.nameIn))

/-- Inverse application of one transform to a parameter vector: reads the
output name, writes the pre-image under the input name, and returns the
log-Jacobian contribution (spec section 4.1, inverse contract). -/
noncomputable def inverseT (t : TransformK) (z : PV) : PV × EReal :=
  (pvSet z t.nameIn (t.inverseVal (z t.nameOut)), t.inverseJac (z t.nameOut))

/-- Kinds of non-composite (leaf) distributions implemented in prior.py. -/
inductive LeafKind where
  | logistic
  | standardNormal
  | logisticSimplex
  deriving DecidableEq, Repr

/-- The prior tree of prior.py: a leaf distribution, a
`SequentialTransformPrior` (one base prior plus an ordered transform chain,
lines 194-241), or a `CombinePrior` (an ordered list of child priors, lines
244-281). -/
inductive PriorTree where
  | leaf (k : LeafKind) (names : List PName)
  | sequential (basePrior : PriorTree) (ts : List TransformK)
  | combine (children : List PriorTree)

/-- The `composite` flag: `False` exactly on leaves (prior.py lines 31, 75,
114, 157, 218, 266). -/
def composite : PriorTree → Bool
  | .leaf _ _ => false
  | .sequential _ _ => true
  | .combine _ => true

mutual

/-- The `parameter_names` attribute.  Leaves store the caller's list;
`SequentialTransformPrior.__init__` threads the base names through each
transform's `propagate_name` in declared order (lines 215-217);
`CombinePrior.__init__` concatenates the children's lists in a loop
(lines 261-263). -/
def parameterNames : PriorTree → List PName
  | .leaf _ ns => ns
  | .sequential b ts => ts.foldl (fun acc t => t.propagateName acc) (parameterNames b)
  | .combine cs => parameterNamesLoop cs []

/-- The accumulation loop of `CombinePrior.__init__` (lines 261-263). -/
def parameterNamesLoop : List PriorTree → List PName → List PName
  | [], acc => acc
  | p :: ps, acc => parameterNamesLoop ps (acc ++ parameterNames p)

end

mutual

/-- `log_prob`.  Leaves use their closed-form densities, reading the value
at their first parameter name (lines 101-103, 141-143, 188-191; the simplex
leaf returns the constant `log 2` whatever the input).
`SequentialTransformPrior.log_prob` starts from `output = 0`, applies each
transform's inverse in reverse declared order while accumulating the
returned log-Jacobian terms, then adds the base prior's `log_prob` of the
resulting vector (lines 226-236).  `CombinePrior.log_prob` starts from `0`
and adds every child's `log_prob` of the same vector (lines 277-281). -/
noncomputable def logProb : PriorTree → PV → EReal
  | .leaf .logistic ns, z => logisticLogPdf (z (ns.headD (.user "")))
  | .leaf .standardNormal ns, z => normalLogPdf (z (ns.headD (.user "")))
  | .leaf .logisticSimplex _, _ => ((Real.log 2 : ℝ) : EReal)
  | .sequential b ts, z =>
      let r := logProbLoop ts.reverse z 0
      r.2 + logProb b r.1
  | .combine cs, z => logProbSum cs z 0

/-- The inversion loop of `SequentialTransformPrior.log_prob` (lines
231-234), already fed with the reversed transform list: thread the vector
through each inverse and add the log-Jacobian into the accumulator. -/
noncomputable def logProbLoop : List TransformK → PV → EReal → PV × EReal
  | [], z, acc => (z, acc)
  | t :: ts, z, acc =>
      let s := inverseT t z
      logProbLoop ts s.1 (acc + s.2)

/-- The summation loop of `CombinePrior.log_prob` (lines 278-281). -/
noncomputable def logProbSum : List PriorTree → PV → EReal → EReal
  | [], _, acc => acc
  | p :: ps, z, acc => logProbSum ps z (acc + logProb p z)

end

/-- A batch of named sample arrays: the `dict[str, Float[Array, n]]`
returned by `sample`, one list of values per name, insertion-ordered. -/
abbrev Batch : Type := List (PName × List EReal)

/-- Interface to the external `jax.random` primitives, together with the
shape and range guarantees that library documents: `split` derives two
fresh keys, `uniform key n` draws `n` values in `[0,1)`, `normal key n`
draws `n` standard normal values, `dirichlet3 key n` draws `n` points of
the 3-simplex. -/
structure RandomOracle where
  split : Key → Key × Key
  uniform : Key → ℕ → List ℝ
  normal : Key → ℕ → List ℝ
  dirichlet3 : Key → ℕ → List (ℝ × ℝ × ℝ)
  uniform_length : ∀ k n, (uniform k n).length = n
  uniform_mem : ∀ k n x, x ∈ uniform k n → 0 ≤ x ∧ x < 1
  normal_length : ∀ k n, (normal k n).length = n
  dirichlet3_length : ∀ k n, (dirichlet3 k n).length = n

/-- A concrete inhabitant of the oracle interface (degenerate draws), to
record that the interface is satisfiable. -/
noncomputable def constOracle : RandomOracle where
  split := fun k => (2 * k + 1, 2 * k + 2)
  uniform := fun _ n => List.replicate n (1 / 2)
  normal := fun _ n => List.replicate n 0
  dirichlet3 := fun _ n => List.replicate n (1 / 3, 1 / 3, 1 / 3)
  uniform_length := fun _ _ => List.length_replicate _ _
  uniform_mem := by
    intro _ _ x hx
    rcases List.eq_of_mem_replicate hx with rfl
    norm_num
  normal_length := fun _ _ => List.length_replicate _ _
  dirichlet3_length := fun _ _ => List.length_replicate _ _

/-- Association lookup in a batch, with an empty array as junk default. -/
def batchGet (s : Batch) (n : PName) : List EReal :=
  (List.lookup n s).getD []

/-- Leading batch dimension: the length of the first stored array (the
common length of every array in a well-formed batch, which is what
`jax.vmap` maps over). -/
def batchLen : Batch → ℕ
  | [] => 0
  | p :: _ => p.2.length

/-- The parameter vector formed by the values of a batch at one sample
index (one slice of the `jax.vmap` mapping in line 224). -/
def rowAt (s : Batch) (i : ℕ) : PV :=
  fun n => (batchGet s n).getD i 0

/-- Python `dict.update`: values of existing keys are replaced in place,
new keys are appended in their own order (line 274). -/
def batchUpdate (old new : Batch) : Batch :=
  old.map (fun p => match List.lookup p.1 new with
    | some v => (p.1, v)
    | none => p)
    ++ new.filter (fun p => (List.lookup p.1 old).isNone)

/-- The forward chain of `SequentialTransformPrior.transform` (lines
238-241): apply every transform's forward map in declared order. -/
noncomputable def forwardChain (ts : List TransformK) (z : PV) : PV :=
  ts.foldl (fun x t => forwardT t x) z

mutual

/-- `sample`.  The logistic leaf draws `n` uniforms and applies
`log(u/(1-u))` (lines 97-99); the normal leaf draws `n` normal values (line
138); the simplex leaf draws from a Dirichlet with the constant key
`PRNGKey(0)` at the hardcoded batch size `1000` — ignoring both the
supplied key and the requested count — then maps the two leading simplex
coordinates through the stick-breaking logit formulas (lines 179-186); all
three wrap up with `add_name`, i.e. `dict(zip(parameter_names, rows))`.
`SequentialTransformPrior.sample` samples the base and maps the forward
transform chain over the batch (lines 220-224).  `CombinePrior.sample`
splits the key once per child, samples the child with the sub-key and
merges with `dict.update` (lines 268-275). -/
noncomputable def sampleP (o : RandomOracle) : PriorTree → Key → ℕ → Batch
  | .leaf .logistic ns, k, n =>
      ns.zip [(o.uniform k n).map (fun u => elogr (u / (1 - u)))]
  | .leaf .standardNormal ns, k, n =>
      ns.zip [(o.normal k n).map (fun v => ((v : ℝ) : EReal))]
  | .leaf .logisticSimplex ns, _, _ =>
      let s := o.dirichlet3 (prngKey 0) 1000
      let z1 := s.map (fun t => elogr (t.1 / (1 - t.1)))
      let z2 := s.map (fun t => elogr ((t.2.1 / (1 - t.1)) / (1 - t.2.1 / (1 - t.1))))
      ns.zip [z1, z2]
  | .sequential b ts, k, n =>
      let s := sampleP o b k n
      let names := parameterNames (.sequential b ts)
      names.map (fun nm =>
        (nm, (List.range (batchLen s)).map (fun i => forwardChain ts (rowAt s i) nm)))
  | .combine cs, k, n => (sampleCombineLoop o cs k n []).1

/-- The merge loop of `CombinePrior.sample` (lines 271-275), threading the
running key and the output dictionary. -/
noncomputable def sampleCombineLoop (o : RandomOracle) :
    List PriorTree → Key → ℕ → Batch → Batch × Key
  | [], k, _, out => (out, k)
  | p :: ps, k, n, out =>
      let ks := o.split k
      sampleCombineLoop o ps ks.1 n (batchUpdate out (sampleP o p ks.2 n))

end

/-- Constructor of `LogisticDistribution` (lines 73-76): requires exactly
one parameter name (the assertion), yielding `none` otherwise. -/
def mkLogisticDistribution (ns : List PName) : Option PriorTree :=
  if ns.length = 1 then some (.leaf .logistic ns) else none

/-- Constructor of `StandardNormalDistribution` (lines 112-117). -/
def mkStandardNormalDistribution (ns : List PName) : Option PriorTree :=
  if ns.length = 1 then some (.leaf .standardNormal ns) else none

/-- Constructor of `LogisticSimplexDistribution` (lines 155-158): requires
exactly two parameter names. -/
def mkLogisticSimplexDistribution (ns : List PName) : Option PriorTree :=
  if ns.length = 2 then some (.leaf .logisticSimplex ns) else none

/-- Constructor of `CombinePrior` (lines 257-266): no validation of any
kind is performed — in particular no disjointness check on the children's
parameter names — so construction always succeeds. -/
def mkCombinePrior (ps : List PriorTree) : Option PriorTree :=
  some (.combine ps)

/-- The prior tree built by `UniformPrior.__init__` (lines 302-323): a
logistic base named `{name}_base`, then logit, scale by `xmax - xmin`, and
offset by `xmin`; the f-string-decorated intermediate names are rendered by
the `unitv`/`shifted` constructors. -/
def uniformTree (xmin xmax : ℝ) (nm : String) : PriorTree :=
  .sequential (.leaf .logistic [.base nm])
    [.logitT (.base nm) (.unitv nm),
     .scaleT (.unitv nm) (.shifted nm) (xmax - xmin),
     .offsetT (.shifted nm) (.user nm) xmin]

/-- Constructor of `UniformPrior` (lines 292-323): asserts exactly one
parameter name; notably it does not validate `xmin < xmax`. -/
def mkUniformPrior (xmin xmax : ℝ) (ns : List String) : Option PriorTree :=
  match ns with
  | [nm] => some (uniformTree xmin xmax nm)
  | _ => none

/-- The prior tree built by `PowerLawPrior.__init__` (lines 457-468): a
logistic base, a logit transform, then the Pareto transform when
`alpha = -1` and the power-law transform otherwise (lines 444-456). -/
noncomputable def powerLawTree (xmin xmax alpha : ℝ) (nm : String) : PriorTree :=
  .sequential (.leaf .logistic [.base nm])
    [.logitT (.base nm) (.beforeT nm),
     if alpha = -1 then .paretoT (.beforeT nm) (.user nm) xmin xmax
     else .powerLawT (.beforeT nm) (.user nm) xmin xmax alpha]

/-- Constructor of `PowerLawPrior` (lines 430-468): asserts one parameter
name, `xmin < xmax` and `0 < xmin`. -/
noncomputable def mkPowerLawPrior (xmin xmax alpha : ℝ) (ns : List String) :
    Option PriorTree :=
  match ns with
  | [nm] => if xmin < xmax then
      (if 0 < xmin then some (powerLawTree xmin xmax alpha nm) else none)
    else none
  | _ => none

/-- Constructor of `SimplexPrior` (lines 335-345).  The source asserts two
parameter names and then calls `SequentialTransformPrior.__init__` with
only the base `CombinePrior` argument, omitting the required `transforms`
argument; Python rejects that call with a `TypeError`, so no input list
ever yields a constructed prior. -/
def mkSimplexPrior (_ : List String) : Option PriorTree := none

mutual

/-- `trace_prior_parent` (lines 487-497): descend a `Sequential` into its
single base, a `Combine` into each child in order, and append every
non-composite prior to the output list. -/
def tracePriorParent : PriorTree → List PriorTree → List PriorTree
  | .leaf k ns, out => out ++ [.leaf k ns]
  | .sequential b _, out => tracePriorParent b out
  | .combine cs, out => traceLoop cs out

/-- The loop of `trace_prior_parent` over a `Combine`'s children (lines
490-491). -/
def traceLoop : List PriorTree → List PriorTree → List PriorTree
  | [], out => out
  | p :: ps, out => traceLoop ps (tracePriorParent p out)

end

/-! ## Specification-side descriptions used for comparison -/

/-- Specification-side rendering of the density stage of spec section 4.3:
apply each transform's inverse in the given order, returning the final
(base-space) vector together with the list of individual log-Jacobian
contributions in the order they were produced. -/
noncomputable def inverseChainSpec : List TransformK → PV → PV × List EReal
  | [], z => (z, [])
  | t :: ts, z =>
      let s := inverseT t z
      let r := inverseChainSpec ts s.1
      (r.1, s.2 :: r.2)

/-- The accumulator loop of `log_prob` computes exactly the final vector of
the inversion chain together with the starting accumulator plus the sum of
the log-Jacobian contributions. -/
theorem logProbLoop_eq_inverseChainSpec (ts : List TransformK) :
    ∀ (z : PV) (acc : EReal),
      logProbLoop ts z acc
        = ((inverseChainSpec ts z).1, acc + (inverseChainSpec ts z).2.sum) := by
  induction ts with
  | nil => intro z acc; simp [logProbLoop, inverseChainSpec]
  | cons t ts ih =>
      intro z acc
      simp only [logProbLoop, inverseChainSpec, ih, List.sum_cons]
      exact congrArg _ (by rw [add_assoc])

/-- Claim C1: for every `SequentialTransformPrior` with base prior `b` and
transform chain `t1..tk`, and every parameter vector `z`, `log_prob z`
equals the sum of the log-Jacobian terms returned by applying each
transform's inverse in reverse declared order (`tk` first, `t1` last), plus
the base prior's `log_prob` evaluated on the base-space vector produced by
that inversion chain. -/
theorem claim_C1_seq_logProb_eq_jacobian_sum_add_base
    (b : PriorTree) (ts : List TransformK) (z : PV) :
    logProb (.sequential b ts) z
      = (inverseChainSpec ts.reverse z).2.sum
          + logProb b (inverseChainSpec ts.reverse z).1 := by
  simp [logProb, logProbLoop_eq_inverseChainSpec]

/-! ## Elementary evaluation lemmas -/

theorem elogr_of_pos {x : ℝ} (h : 0 < x) : elogr x = ((Real.log x : ℝ) : EReal) := by
  simp [elogr, h]

theorem elogr_of_nonpos {x : ℝ} (h : x ≤ 0) : elogr x = ⊥ := by
  simp [elogr, not_lt.2 h]

theorem eexp_coe (r : ℝ) : eexp ((r : ℝ) : EReal) = ((Real.exp r : ℝ) : EReal) := by
  simp [eexp, EReal.coe_ne_top, EReal.coe_ne_bot]

theorem elog_coe_of_pos {r : ℝ} (h : 0 < r) :
    elog ((r : ℝ) : EReal) = ((Real.log r : ℝ) : EReal) := by
  simp [elog, EReal.coe_ne_top, elogr_of_pos h]

theorem ereal_two_coe : ((2 : ℝ) : EReal) = (2 : EReal) := by norm_cast

theorem logisticLogPdf_coe (r : ℝ) :
    logisticLogPdf ((r : ℝ) : EReal)
      = ((-r - 2 * Real.log (1 + Real.exp (-r)) : ℝ) : EReal) := by
  have hpos : (0 : ℝ) < 1 + Real.exp (-r) := by positivity
  rw [logisticLogPdf, ← EReal.coe_neg, eexp_coe]
  rw [show ((1 : EReal) + ((Real.exp (-r) : ℝ) : EReal))
        = (((1 + Real.exp (-r) : ℝ)) : EReal) by norm_cast]
  rw [elog_coe_of_pos hpos, ← ereal_two_coe, ← EReal.coe_mul, ← EReal.coe_sub]

theorem logisticLogPdf_bot : logisticLogPdf ⊥ = ⊥ := by
  rw [logisticLogPdf]
  have h1 : eexp (-(⊥ : EReal)) = ⊤ := by simp [eexp]
  rw [h1]
  have h2 : (1 : EReal) + ⊤ = ⊤ := by
    rw [← EReal.coe_one]; exact EReal.coe_add_top 1
  rw [h2]
  have h3 : elog ⊤ = ⊤ := by simp [elog]
  rw [h3]
  have h4 : (2 : EReal) * ⊤ = ⊤ := by
    rw [← ereal_two_coe]; exact EReal.coe_mul_top_of_pos (by norm_num)
  rw [h4, EReal.neg_bot, EReal.sub_top]

/-- Evaluation of the logistic density at the logit of `u` for `u ∈ (0,1)`:
it collapses to `log u + log (1-u)`. -/
theorem logisticLogPdf_elogr_logit {u : ℝ} (h0 : 0 < u) (h1 : u < 1) :
    logisticLogPdf (elogr (u / (1 - u)))
      = ((Real.log u + Real.log (1 - u) : ℝ) : EReal) := by
  have h1u : (0 : ℝ) < 1 - u := by linarith
  have ht : (0 : ℝ) < u / (1 - u) := div_pos h0 h1u
  rw [elogr_of_pos ht, logisticLogPdf_coe]
  have hexp : Real.exp (-Real.log (u / (1 - u))) = (1 - u) / u := by
    rw [Real.exp_neg, Real.exp_log ht, inv_div]
  rw [hexp]
  have hsum : 1 + (1 - u) / u = 1 / u := by field_simp
  rw [hsum]
  have hlog : Real.log (u / (1 - u)) = Real.log u - Real.log (1 - u) :=
    Real.log_div (ne_of_gt h0) (ne_of_gt h1u)
  have hlogi : Real.log (1 / u) = -Real.log u := by
    rw [one_div, Real.log_inv]
  rw [hlog, hlogi]
  norm_cast
  ring

/-- The logit pre-image is the non-finite sentinel whenever `u` lies
outside the open unit interval. -/
theorem elogr_logit_bot {u : ℝ} (h : u ≤ 0 ∨ 1 ≤ u) : elogr (u / (1 - u)) = ⊥ := by
  rcases h with h | h
  · rcases eq_or_lt_of_le h with rfl | hlt
    · simp [elogr]
    · exact elogr_of_nonpos (le_of_lt (div_neg_of_neg_of_pos hlt (by linarith)))
  · rcases eq_or_lt_of_le h with rfl | hlt
    · simp [elogr]
    · exact elogr_of_nonpos
        (le_of_lt (div_neg_of_pos_of_neg (by linarith) (by linarith)))

/-! ## Density of the uniform prior -/

/-- Inside the open support, the log-density of the uniform prior tree is
the constant `-log (xmax - xmin)`. -/
theorem uniform_logProb_interior (xmin xmax : ℝ) (nm : String) (z : PV) (v : ℝ)
    (hz : z (.user nm) = ((v : ℝ) : EReal))
    (h1 : xmin < v) (h2 : v < xmax) :
    logProb (uniformTree xmin xmax nm) z
      = ((-Real.log (xmax - xmin) : ℝ) : EReal) := by
  have hs : (0 : ℝ) < xmax - xmin := by linarith
  have hu0 : (0 : ℝ) < (v - xmin) / (xmax - xmin) := div_pos (by linarith) hs
  have hu1 : (v - xmin) / (xmax - xmin) < 1 := (div_lt_one hs).2 (by linarith)
  have huv : (0 : ℝ) < (v - xmin) / (xmax - xmin)
      * (1 - (v - xmin) / (xmax - xmin)) := mul_pos hu0 (by linarith)
  simp only [uniformTree, logProb, logProbLoop, inverseT, pvSet,
    TransformK.nameIn, TransformK.nameOut, TransformK.inverseVal,
    TransformK.inverseJac, List.reverse_cons, List.reverse_nil,
    List.nil_append, List.cons_append, List.headD_cons, hz,
    EReal.toReal_coe, reduceCtorEq, if_true, if_false, ite_true, ite_false,
    PName.user.injEq, PName.base.injEq, PName.unitv.injEq, PName.shifted.injEq]
  rw [abs_of_pos hs, elogr_of_pos hs, abs_of_pos huv, elogr_of_pos huv,
    logisticLogPdf_elogr_logit hu0 hu1]
  rw [Real.log_mul (ne_of_gt hu0) (by linarith)]
  norm_cast
  ring

/-- Outside the closed support (and at its boundary) the log-density of the
uniform prior tree is the non-finite sentinel. -/
theorem uniform_logProb_outside (xmin xmax : ℝ) (nm : String) (z : PV) (v : ℝ)
    (hz : z (.user nm) = ((v : ℝ) : EReal)) (hab : xmin < xmax)
    (h : v ≤ xmin ∨ xmax ≤ v) :
    logProb (uniformTree xmin xmax nm) z = ⊥ := by
  simp only [uniformTree, logProb, logProbLoop, inverseT, pvSet,
    TransformK.nameIn, TransformK.nameOut, TransformK.inverseVal,
    TransformK.inverseJac, List.reverse_cons, List.reverse_nil,
    List.nil_append, List.cons_append, List.headD_cons, hz,
    EReal.toReal_coe, reduceCtorEq, if_true, if_false, ite_true, ite_false,
    PName.user.injEq, PName.base.injEq, PName.unitv.injEq, PName.shifted.injEq]
  have hs : (0 : ℝ) < xmax - xmin := by linarith
  have hu : (v - xmin) / (xmax - xmin) ≤ 0 ∨ 1 ≤ (v - xmin) / (xmax - xmin) := by
    rcases h with h | h
    · exact Or.inl (div_nonpos_of_nonpos_of_nonneg (by linarith) (le_of_lt hs))
    · exact Or.inr ((one_le_div hs).2 (by linarith))
  rw [elogr_logit_bot hu, logisticLogPdf_bot, EReal.add_bot]

/-- Unfolding lemma: `log_prob` of a `CombinePrior`. -/
theorem logProb_combine (cs : List PriorTree) (z : PV) :
    logProb (.combine cs) z = logProbSum cs z 0 := by
  simp only [logProb]

/-- Unfolding lemma: one step of the `CombinePrior.log_prob` loop. -/
theorem logProbSum_cons (p : PriorTree) (ps : List PriorTree) (z : PV) (acc : EReal) :
    logProbSum (p :: ps) z acc = logProbSum ps z (acc + logProb p z) := by
  simp only [logProbSum]

/-- Unfolding lemma: the empty `CombinePrior.log_prob` loop. -/
theorem logProbSum_nil (z : PV) (acc : EReal) : logProbSum [] z acc = acc := by
  simp only [logProbSum]

/-- Unfolding lemma: `log_prob` of the logistic leaf. -/
theorem logProb_logistic_leaf (ns : List PName) (z : PV) :
    logProb (.leaf .logistic ns) z = logisticLogPdf (z (ns.headD (.user ""))) := by
  simp only [logProb]

/-- Unfolding lemma: `log_prob` of a `SequentialTransformPrior`. -/
theorem logProb_sequential (b : PriorTree) (ts : List TransformK) (z : PV) :
    logProb (.sequential b ts) z
      = (logProbLoop ts.reverse z 0).2
          + logProb b (logProbLoop ts.reverse z 0).1 := by
  simp only [logProb]

/-- The `CombinePrior` of two disjointly-named `Uniform(0,1)` priors of the
concrete scenario in spec section 8. -/
def combineTwoUnitUniforms : PriorTree :=
  .combine [uniformTree 0 1 "x", uniformTree 0 1 "y"]

/-- The parameter vector assigning `a` to `x` and `b` to `y`. -/
def pvXY (a b : ℝ) : PV :=
  fun n => if n = .user "x" then ((a : ℝ) : EReal)
    else if n = .user "y" then ((b : ℝ) : EReal) else 0

/-- Claim C2: `log_prob` of every constructed prior is a total function
returning the `-infinity` sentinel outside the support: for the
`CombinePrior` of two disjointly-named `Uniform(0,1)` priors, `log_prob`
equals `0` at every point with both coordinates inside the unit interval
(its interior — the spec's section 7 reserves the boundary for non-finite
values), and is `-infinity` (`⊥`) whenever either coordinate leaves
`[0,1]`. -/
theorem claim_C2_combine_unit_uniform_logProb (a b : ℝ) :
    (0 < a → a < 1 → 0 < b → b < 1 →
      logProb combineTwoUnitUniforms (pvXY a b) = 0)
    ∧ ((a < 0 ∨ 1 < a ∨ b < 0 ∨ 1 < b) →
      logProb combineTwoUnitUniforms (pvXY a b) = ⊥) := by
  have hx : pvXY a b (.user "x") = ((a : ℝ) : EReal) := by simp [pvXY]
  have hy : pvXY a b (.user "y") = ((b : ℝ) : EReal) := by simp [pvXY]
  have e : logProb combineTwoUnitUniforms (pvXY a b)
      = (0 + logProb (uniformTree 0 1 "x") (pvXY a b))
          + logProb (uniformTree 0 1 "y") (pvXY a b) := by
    rw [combineTwoUnitUniforms, logProb_combine, logProbSum_cons,
      logProbSum_cons, logProbSum_nil]
  constructor
  · intro ha0 ha1 hb0 hb1
    rw [e, uniform_logProb_interior 0 1 "x" _ a hx ha0 ha1,
      uniform_logProb_interior 0 1 "y" _ b hy hb0 hb1]
    norm_num
  · intro h
    rw [e]
    rcases h with h | h | h | h
    · rw [uniform_logProb_outside 0 1 "x" _ a hx (by norm_num)
        (Or.inl (le_of_lt h)), zero_add, EReal.bot_add]
    · rw [uniform_logProb_outside 0 1 "x" _ a hx (by norm_num)
        (Or.inr (le_of_lt h)), zero_add, EReal.bot_add]
    · rw [uniform_logProb_outside 0 1 "y" _ b hy (by norm_num)
        (Or.inl (le_of_lt h)), EReal.add_bot]
    · rw [uniform_logProb_outside 0 1 "y" _ b hy (by norm_num)
        (Or.inr (le_of_lt h)), EReal.add_bot]

/-- Witness for claim C2: the combined density is `0` at `(1/2, 1/2)` and
`-infinity` at `(2, 1/2)`. -/
theorem claim_C2_witness :
    logProb combineTwoUnitUniforms (pvXY (1 / 2) (1 / 2)) = 0
    ∧ logProb combineTwoUnitUniforms (pvXY 2 (1 / 2)) = ⊥ :=
  ⟨(claim_C2_combine_unit_uniform_logProb (1 / 2) (1 / 2)).1
      (by norm_num) (by norm_num) (by norm_num) (by norm_num),
   (claim_C2_combine_unit_uniform_logProb 2 (1 / 2)).2
      (Or.inr (Or.inl (by norm_num)))⟩

/-! ## Samples of the uniform prior -/

/-- The extended sigmoid lands in `[0,1]` whatever its argument. -/
theorem esigmoid_toReal_bounds (x : EReal) :
    0 ≤ (esigmoid x).toReal ∧ (esigmoid x).toReal ≤ 1 := by
  rw [esigmoid]
  split_ifs with h1 h2
  · simp
  · simp
  · rw [EReal.toReal_coe]
    have hd : (0 : ℝ) < 1 + Real.exp (-x.toReal) := by positivity
    constructor
    · positivity
    · rw [div_le_one hd]
      have := Real.exp_pos (-x.toReal)
      linarith

/-- Closed form of the uniform prior's sample batch: a single array under
the user name, whose entries are the base logistic draws pushed through
sigmoid, scale and offset. -/
theorem sampleP_uniformTree (xmin xmax : ℝ) (nm : String) (o : RandomOracle)
    (k : Key) (n : ℕ) :
    sampleP o (uniformTree xmin xmax nm) k n
      = [(.user nm, (List.range n).map (fun i =>
          (((xmax - xmin) * (esigmoid (((o.uniform k n).map
              (fun u => elogr (u / (1 - u)))).getD i 0)).toReal + xmin : ℝ)
            : EReal)))] := by
  simp only [uniformTree, sampleP, parameterNames, forwardChain, forwardT,
    pvSet, rowAt, batchGet, batchLen,
    TransformK.nameIn, TransformK.nameOut, TransformK.forwardVal,
    TransformK.propagateName,
    List.zip_cons_cons, List.zip_nil_right, List.foldl_cons, List.foldl_nil,
    List.map_cons, List.map_nil, List.lookup_cons, List.length_map,
    o.uniform_length, EReal.toReal_coe, beq_self_eq_true, reduceCtorEq,
    if_true, if_false, ite_true, ite_false, eq_self_iff_true,
    PName.user.injEq, PName.base.injEq, PName.unitv.injEq, PName.shifted.injEq,
    Option.getD_some]

/-- Claim C6: for every `UniformPrior(xmin, xmax)` with `xmin < xmax`,
every value returned by `sample` lies in `[xmin, xmax]`, and `log_prob`
equals the constant `-log (xmax - xmin)` at every in-support point (the
support being the open interval, where the density is finite). -/
theorem claim_C6_uniform_sample_range_and_logProb (xmin xmax : ℝ) (nm : String)
    (hab : xmin < xmax) :
    (∀ (o : RandomOracle) (k : Key) (n : ℕ) (p : PName × List EReal) (v : EReal),
        p ∈ sampleP o (uniformTree xmin xmax nm) k n → v ∈ p.2 →
        ((xmin : ℝ) : EReal) ≤ v ∧ v ≤ ((xmax : ℝ) : EReal))
    ∧ (∀ v : ℝ, xmin < v → v < xmax →
        logProb (uniformTree xmin xmax nm) (pvSingle (.user nm) v)
          = ((-Real.log (xmax - xmin) : ℝ) : EReal)) := by
  constructor
  · intro o k n p v hp hv
    rw [sampleP_uniformTree] at hp
    rcases List.mem_singleton.1 hp with rfl
    rcases List.mem_map.1 hv with ⟨i, _, rfl⟩
    rcases esigmoid_toReal_bounds
        (((o.uniform k n).map (fun u => elogr (u / (1 - u)))).getD i 0)
      with ⟨hs0, hs1⟩
    constructor
    · rw [EReal.coe_le_coe_iff]
      nlinarith
    · rw [EReal.coe_le_coe_iff]
      nlinarith
  · intro v h1 h2
    exact uniform_logProb_interior xmin xmax nm _ v (by simp [pvSingle]) h1 h2

/-- Witness for claim C6: the concrete scenario `Uniform(-10, 10)` — the
density at `x = 0` is `log (1/20)`, and the sample of the degenerate
oracle lies inside `[-10, 10]`. -/
theorem claim_C6_witness :
    logProb (uniformTree (-10) 10 "x") (pvSingle (.user "x") 0)
      = ((Real.log (1 / 20) : ℝ) : EReal)
    ∧ ∀ v : EReal,
        v ∈ (batchGet (sampleP constOracle (uniformTree (-10) 10 "x") 0 1) (.user "x")) →
        ((-10 : ℝ) : EReal) ≤ v ∧ v ≤ ((10 : ℝ) : EReal) := by
  constructor
  · rw [(claim_C6_uniform_sample_range_and_logProb (-10) 10 "x"
        (by norm_num)).2 0 (by norm_num) (by norm_num)]
    rw [show (1 / 20 : ℝ) = (20 : ℝ)⁻¹ by norm_num, Real.log_inv]
    norm_num
  · intro v hv
    refine (claim_C6_uniform_sample_range_and_logProb (-10) 10 "x"
        (by norm_num)).1 constOracle 0 1
      (.user "x", batchGet (sampleP constOracle (uniformTree (-10) 10 "x") 0 1) (.user "x"))
      v ?_ hv
    rw [sampleP_uniformTree]
    simp [batchGet]

/-! ## Density of the power-law prior -/

/-- The logit inverse's log-Jacobian cancels against the logistic base
density for a unit-interval argument. -/
theorem logit_jac_base_cancel {u : ℝ} (h0 : 0 < u) (h1 : u < 1) :
    -(elogr |u * (1 - u)|) + logisticLogPdf (elogr (u / (1 - u))) = 0 := by
  have huv : (0 : ℝ) < u * (1 - u) := mul_pos h0 (by linarith)
  rw [abs_of_pos huv, elogr_of_pos huv, logisticLogPdf_elogr_logit h0 h1,
    Real.log_mul (ne_of_gt h0) (by linarith)]
  norm_cast
  ring

/-- For `0 < xmin < x < xmax` and any exponent `e ≠ 0`, the power-law CDF
value lies in the open unit interval. -/
theorem powerLaw_cdf_mem {xmin xmax x e : ℝ} (h0 : 0 < xmin) (hx1 : xmin < x)
    (hx2 : x < xmax) (he : e ≠ 0) :
    0 < (x ^ e - xmin ^ e) / (xmax ^ e - xmin ^ e)
    ∧ (x ^ e - xmin ^ e) / (xmax ^ e - xmin ^ e) < 1 := by
  rcases lt_or_gt_of_ne he with he | he
  · have hm1 : x ^ e < xmin ^ e := Real.rpow_lt_rpow_of_neg h0 hx1 he
    have hm2 : xmax ^ e < x ^ e :=
      Real.rpow_lt_rpow_of_neg (lt_trans h0 hx1) hx2 he
    constructor
    · exact div_pos_of_neg_of_neg (by linarith) (by linarith)
    · exact (div_lt_one_of_neg (by linarith)).2 (by linarith)
  · have hm1 : xmin ^ e < x ^ e := Real.rpow_lt_rpow (le_of_lt h0) hx1 he
    have hm2 : x ^ e < xmax ^ e :=
      Real.rpow_lt_rpow (le_of_lt (lt_trans h0 hx1)) hx2 he
    constructor
    · exact div_pos (by linarith) (by linarith)
    · exact (div_lt_one (by linarith)).2 (by linarith)

/-- Density of the power-law prior tree for `alpha ≠ -1`: the closed form
`log(normalization) + alpha * log x` on the open support. -/
theorem powerLaw_logProb_generic (xmin xmax alpha : ℝ) (nm : String) (x : ℝ)
    (ha : alpha ≠ -1) (h0 : 0 < xmin) (hx1 : xmin < x) (hx2 : x < xmax) :
    logProb (powerLawTree xmin xmax alpha nm) (pvSingle (.user nm) x)
      = ((Real.log ((1 + alpha) / (xmax ^ (1 + alpha) - xmin ^ (1 + alpha)))
          + alpha * Real.log x : ℝ) : EReal) := by
  have he : 1 + alpha ≠ 0 := fun h => ha (by linarith)
  obtain ⟨hu0, hu1⟩ := powerLaw_cdf_mem h0 hx1 hx2 he
  rw [powerLawTree, if_neg ha, logProb_sequential]
  simp only [logProbLoop, inverseT, pvSet, pvSingle, parameterNames,
    TransformK.nameIn, TransformK.nameOut, TransformK.inverseVal,
    TransformK.inverseJac, List.reverse_cons, List.reverse_nil,
    List.nil_append, List.cons_append, List.headD_cons,
    logProb_logistic_leaf,
    EReal.toReal_coe, reduceCtorEq, if_true, if_false, ite_true, ite_false,
    eq_self_iff_true, PName.user.injEq, PName.base.injEq, PName.beforeT.injEq]
  rw [add_assoc, logit_jac_base_cancel hu0 hu1, add_zero, zero_add]

/-- Density of the power-law prior tree for `alpha = -1` (Pareto case): the
log-uniform closed form on the open support. -/
theorem powerLaw_logProb_pareto (xmin xmax : ℝ) (nm : String) (x : ℝ)
    (h0 : 0 < xmin) (hx1 : xmin < x) (hx2 : x < xmax) :
    logProb (powerLawTree xmin xmax (-1) nm) (pvSingle (.user nm) x)
      = ((-(Real.log x) - Real.log (Real.log (xmax / xmin)) : ℝ) : EReal) := by
  have hL : 0 < Real.log (xmax / xmin) :=
    Real.log_pos ((one_lt_div h0).2 (lt_trans hx1 hx2))
  have hl : 0 < Real.log (x / xmin) := Real.log_pos ((one_lt_div h0).2 hx1)
  have hu0 : 0 < Real.log (x / xmin) / Real.log (xmax / xmin) := div_pos hl hL
  have hu1 : Real.log (x / xmin) / Real.log (xmax / xmin) < 1 :=
    (div_lt_one hL).2 (Real.log_lt_log (div_pos (lt_trans h0 hx1) h0)
      ((div_lt_div_iff_of_pos_right h0).2 hx2))
  rw [powerLawTree, if_pos rfl, logProb_sequential]
  simp only [logProbLoop, inverseT, pvSet, pvSingle, parameterNames,
    TransformK.nameIn, TransformK.nameOut, TransformK.inverseVal,
    TransformK.inverseJac, List.reverse_cons, List.reverse_nil,
    List.nil_append, List.cons_append, List.headD_cons,
    logProb_logistic_leaf,
    EReal.toReal_coe, reduceCtorEq, if_true, if_false, ite_true, ite_false,
    eq_self_iff_true, PName.user.injEq, PName.base.injEq, PName.beforeT.injEq]
  rw [add_assoc, logit_jac_base_cancel hu0 hu1, add_zero, zero_add]

/-- Claim C7: for every `PowerLawPrior(xmin, xmax, alpha)` with
`0 < xmin < xmax`, the density at every in-support `x` is
`log((1+alpha)/(xmax^(1+alpha) - xmin^(1+alpha))) + alpha*log x` when
`alpha ≠ -1`, and the log-uniform form `-log x - log(log(xmax/xmin))` when
`alpha = -1` (the Pareto transform), so that
`PowerLawPrior(0.05, 10, -1).log_prob 1 = -log (log 200)`. -/
theorem claim_C7_powerLaw_logProb (xmin xmax alpha : ℝ) (nm : String) (x : ℝ)
    (h0 : 0 < xmin) (hx1 : xmin < x) (hx2 : x < xmax) :
    (alpha ≠ -1 →
      logProb (powerLawTree xmin xmax alpha nm) (pvSingle (.user nm) x)
        = ((Real.log ((1 + alpha) / (xmax ^ (1 + alpha) - xmin ^ (1 + alpha)))
            + alpha * Real.log x : ℝ) : EReal))
    ∧ (alpha = -1 →
      logProb (powerLawTree xmin xmax alpha nm) (pvSingle (.user nm) x)
        = ((-(Real.log x) - Real.log (Real.log (xmax / xmin)) : ℝ) : EReal)) := by
  constructor
  · intro ha
    exact powerLaw_logProb_generic xmin xmax alpha nm x ha h0 hx1 hx2
  · rintro rfl
    exact powerLaw_logProb_pareto xmin xmax nm x h0 hx1 hx2

/-- Witness for claim C7: the Pareto-case scenario
`PowerLaw(0.05, 10, -1)` evaluated at `x = 1` gives `-log (log 200)`. -/
theorem claim_C7_witness :
    logProb (powerLawTree 0.05 10 (-1) "x") (pvSingle (.user "x") 1)
      = ((-Real.log (Real.log 200) : ℝ) : EReal) := by
  rw [(claim_C7_powerLaw_logProb 0.05 10 (-1) "x" 1 (by norm_num) (by norm_num)
    (by norm_num)).2 rfl]
  norm_num

/-! ## Leaf tracing -/

/-- Tracing a uniform prior tree descends into its logistic base leaf and
appends it to the output. -/
theorem tracePriorParent_uniformTree (xmin xmax : ℝ) (nm : String)
    (out : List PriorTree) :
    tracePriorParent (uniformTree xmin xmax nm) out
      = out ++ [.leaf .logistic [.base nm]] := by
  simp only [uniformTree, tracePriorParent]

/-- The trace loop over a list of uniform children appends their logistic
base leaves in order. -/
theorem traceLoop_uniforms (ps : List (ℝ × ℝ × String)) :
    ∀ out : List PriorTree,
      traceLoop (ps.map (fun t => uniformTree t.1 t.2.1 t.2.2)) out
        = out ++ ps.map (fun t => PriorTree.leaf .logistic [.base t.2.2]) := by
  induction ps with
  | nil => intro out; simp [traceLoop]
  | cons t ts ih =>
      intro out
      simp only [List.map_cons, traceLoop, tracePriorParent_uniformTree, ih,
        List.append_assoc, List.singleton_append]

/-- Claim C8: applying `trace_prior_parent` to a `CombinePrior` of `k`
uniform children returns exactly `k` non-composite leaf priors (the
children's logistic bases), in depth-first left-to-right construction
order: the `Sequential` of each uniform child descends into its single
base, and `Combine` descends into each child in order. -/
theorem claim_C8_trace_combine_of_uniforms (ps : List (ℝ × ℝ × String)) :
    tracePriorParent (.combine (ps.map (fun t => uniformTree t.1 t.2.1 t.2.2))) []
        = ps.map (fun t => PriorTree.leaf .logistic [.base t.2.2])
    ∧ (tracePriorParent (.combine (ps.map (fun t => uniformTree t.1 t.2.1 t.2.2)))
        []).length = ps.length
    ∧ ∀ p ∈ tracePriorParent
        (.combine (ps.map (fun t => uniformTree t.1 t.2.1 t.2.2))) [],
        composite p = false := by
  have e : tracePriorParent
      (.combine (ps.map (fun t => uniformTree t.1 t.2.1 t.2.2))) []
        = ps.map (fun t => PriorTree.leaf .logistic [.base t.2.2]) := by
    simp only [tracePriorParent, traceLoop_uniforms ps [], List.nil_append]
  refine ⟨e, ?_, ?_⟩
  · rw [e, List.length_map]
  · intro p hp
    rw [e] at hp
    rcases List.mem_map.1 hp with ⟨t, _, rfl⟩
    simp [composite]

/-- Witness for claim C8: the two-child instance, with the membership
hypothesis of the third conjunct discharged at the first returned leaf. -/
theorem claim_C8_witness :
    tracePriorParent
        (.combine [uniformTree 0 1 "a", uniformTree 0 1 "b"]) []
      = [.leaf .logistic [.base "a"], .leaf .logistic [.base "b"]]
    ∧ composite (.leaf .logistic [.base "a"]) = false := by
  have h := claim_C8_trace_combine_of_uniforms [(0, 1, "a"), (0, 1, "b")]
  simp only [List.map_cons, List.map_nil] at h
  exact ⟨h.1, h.2.2 _ (by rw [h.1]; exact List.mem_cons_self _ _)⟩

/-! ## Combine construction -/

/-- The uniform prior tree's parameter names consist of the single user
name. -/
theorem parameterNames_uniformTree (xmin xmax : ℝ) (nm : String) :
    parameterNames (uniformTree xmin xmax nm) = [.user nm] := by
  simp only [uniformTree, parameterNames, TransformK.propagateName,
    TransformK.nameIn, TransformK.nameOut, List.foldl_cons, List.foldl_nil,
    List.map_cons, List.map_nil, reduceCtorEq, if_true, if_false, ite_true,
    ite_false, eq_self_iff_true, PName.user.injEq, PName.base.injEq,
    PName.unitv.injEq, PName.shifted.injEq]

/-- Unfolding lemma: `parameter_names` of a `CombinePrior`. -/
theorem parameterNames_combine (cs : List PriorTree) :
    parameterNames (.combine cs) = parameterNamesLoop cs [] := by
  simp only [parameterNames]

/-- The name-accumulation loop of `CombinePrior.__init__` concatenates the
children's parameter-name lists after the accumulator. -/
theorem parameterNamesLoop_eq_append (ps : List PriorTree) :
    ∀ acc : List PName,
      parameterNamesLoop ps acc = acc ++ (ps.map parameterNames).flatten := by
  induction ps with
  | nil => intro acc; simp [parameterNamesLoop]
  | cons p ps ih =>
      intro acc
      simp only [parameterNamesLoop, List.map_cons, List.flatten_cons, ih,
        List.append_assoc]

/-- Counterexample to claim C5: combining two children that share the name
`x` succeeds (no construction failure) and yields a `parameter_names`
list with a duplicate — not the duplicate-free union the claim asserts. -/
theorem claim_C5_counterexample :
    mkCombinePrior [uniformTree 0 1 "x", uniformTree 0 1 "x"]
        = some (.combine [uniformTree 0 1 "x", uniformTree 0 1 "x"])
    ∧ parameterNames (.combine [uniformTree 0 1 "x", uniformTree 0 1 "x"])
        = [.user "x", .user "x"]
    ∧ ¬ (parameterNames
        (.combine [uniformTree 0 1 "x", uniformTree 0 1 "x"])).Nodup := by
  have e : parameterNames (.combine [uniformTree 0 1 "x", uniformTree 0 1 "x"])
      = [PName.user "x", PName.user "x"] := by
    rw [parameterNames_combine, parameterNamesLoop_eq_append]
    simp [parameterNames_uniformTree]
  refine ⟨rfl, e, ?_⟩
  rw [e]
  decide

/-- Claim C5 as amended: `CombinePrior` construction performs no
disjointness validation and always succeeds, and the composite's
`parameter_names` is the concatenation of the children's parameter-name
lists with duplicates preserved. -/
theorem claim_C5_amended_combine_concat (ps : List PriorTree) :
    mkCombinePrior ps = some (.combine ps)
    ∧ parameterNames (.combine ps) = (ps.map parameterNames).flatten := by
  refine ⟨rfl, ?_⟩
  rw [parameterNames_combine, parameterNamesLoop_eq_append, List.nil_append]

/-! ## Simplex constructor and sampler -/

/-- Claim C4 evaluated on the failing input: `SimplexPrior` construction
does not succeed on a two-element name list (nor on any other), because the
source calls the parent initializer without its required `transforms`
argument. -/
theorem claim_C4_simplex_construction_fails :
    mkSimplexPrior ["x", "y"] = none ∧ ∀ ns : List String, mkSimplexPrior ns = none :=
  ⟨rfl, fun _ => rfl⟩

/-- Claim C3 evaluated on the failing input: the simplex leaf's sampler,
asked for a single sample, returns arrays of the hardcoded length `1000`
under both names. -/
theorem claim_C3_simplex_sample_wrong_length (o : RandomOracle) (k : Key) :
    (sampleP o (.leaf .logisticSimplex [.user "a", .user "b"]) k 1).map
        (fun p => (p.1, p.2.length))
      = [(.user "a", 1000), (.user "b", 1000)] := by
  simp [sampleP, o.dirichlet3_length]

/-- Claim C9: the simplex leaf's sampler ignores both the supplied rng key
and the requested sample count — any two keys and counts produce the
identical output batch. -/
theorem claim_C9_simplex_sample_ignores_key_and_count (o : RandomOracle)
    (ns : List PName) (k1 k2 : Key) (n1 n2 : ℕ) :
    sampleP o (.leaf .logisticSimplex ns) k1 n1
      = sampleP o (.leaf .logisticSimplex ns) k2 n2 := by
  simp only [sampleP]

/-- Claim C10: the simplex leaf's `log_prob` returns the constant `log 2`
for every input vector, and in particular never the `-infinity`
sentinel. -/
theorem claim_C10_simplex_logProb_const (ns : List PName) (z z₁ : PV) :
    logProb (.leaf .logisticSimplex ns) z = ((Real.log 2 : ℝ) : EReal)
    ∧ logProb (.leaf .logisticSimplex ns) z
        = logProb (.leaf .logisticSimplex ns) z₁
    ∧ logProb (.leaf .logisticSimplex ns) z ≠ ⊥ := by
  refine ⟨by simp only [logProb], by simp only [logProb], ?_⟩
  simp only [logProb]
  exact EReal.coe_ne_bot _

end JimgwPrior
